import Mathlib

/-!
Verification development for the mtuq grid-search / misfit-evaluation engine
and its graphics utilities.

The repository contains the MPI example scripts
(`examples/GridSearchDC3MPI.py`, `examples/DCGridSearch3ParameterMPI.py`),
the script generator (`setup/code_generator.py`), and the graphics modules
(`mtuq/graphics/header.py`, `mtuq/graphics/uq.py`).  The engine internals
(`mtuq.grid_search.grid_search_mpi`, `mtuq.misfit.cap.misfit`, the grid
classes) are imported by those scripts but their bodies are not part of this
source tree; where a claim depends on them they are modelled from the spec,
as marked in each doc comment.  Everything visible in the source tree
(the gather/concatenate reduction, `results.argmin()` selection, event
ordering of the scripts, `TextHeader.__init__`, `_check_ext`) is embedded
directly from the source.
-/

namespace MTUQ

/-! ## Work distribution

Modelled from the spec: the body of `grid_search_mpi` (module
`mtuq.grid_search`) is not in the source tree; the spec describes a standard
balanced block partition of `[0, N)` across `W` workers, sizes differing by
at most one, contiguous ranges in worker-rank order. -/

/-- Modelled from the spec: number of grid indices assigned to worker `w`
out of `W` workers for a grid of size `N` (balanced block partition:
the first `N % W` workers get `N / W + 1` indices, the rest `N / W`). -/
def workerCount (N W w : ℕ) : ℕ :=
  N / W + if w < N % W then 1 else 0

/-- Modelled from the spec: first grid index assigned to worker `w`. -/
def workerStart (N W w : ℕ) : ℕ :=
  w * (N / W) + min w (N % W)

/-- Modelled from the spec: the contiguous index range assigned to worker `w`. -/
def workerRange (N W w : ℕ) : List ℕ :=
  List.range' (workerStart N W w) (workerCount N W w)

/-- Modelled from the spec: the WorkDistributor output, one
`(start, count)` pair per worker, in worker-rank order. -/
def distribute (N W : ℕ) : List (ℕ × ℕ) :=
  (List.range W).map (fun w => (workerStart N W w, workerCount N W w))

theorem workerStart_succ (N W w : ℕ) :
    workerStart N W (w + 1) = workerStart N W w + workerCount N W w := by
  unfold workerStart workerCount
  rcases lt_or_le w (N % W) with h | h
  · have h1 : min w (N % W) = w := min_eq_left (le_of_lt h)
    have h2 : min (w + 1) (N % W) = w + 1 := min_eq_left h
    simp [h1, h2, if_pos h]
    ring
  · have h1 : min w (N % W) = N % W := min_eq_right h
    have h2 : min (w + 1) (N % W) = N % W := min_eq_right (le_trans h (Nat.le_succ w))
    simp [h1, h2, if_neg (not_lt.mpr h)]
    ring

theorem workerStart_last (N W : ℕ) (hW : 1 ≤ W) : workerStart N W W = N := by
  unfold workerStart
  have hr : N % W ≤ W := le_of_lt (Nat.mod_lt _ hW)
  rw [min_eq_right hr]
  have hd := Nat.div_add_mod N W
  omega

/-- The concatenation of the first `k` worker ranges is the contiguous
range `[0, workerStart N W k)`. -/
theorem flatten_workerRange (N W k : ℕ) :
    ((List.range k).map (workerRange N W)).flatten =
      List.range' 0 (workerStart N W k) := by
  induction k with
  | zero => simp [workerStart]
  | succ k ih =>
      rw [List.range_succ, List.map_append, List.flatten_append, ih]
      simp only [List.map_cons, List.map_nil, List.flatten_cons, List.flatten_nil,
        List.append_nil, workerRange]
      have := List.range'_append 0 (workerStart N W k) (workerCount N W k) 1
      simp only [one_mul, Nat.zero_add] at this
      rw [this, workerStart_succ, Nat.add_comm]

/-- Full coverage: the worker ranges concatenated in rank order are exactly
`[0, N)` in order (hence: union is `[0, N)`, no overlap, no gap). -/
theorem flatten_workerRange_full (N W : ℕ) (hW : 1 ≤ W) :
    ((List.range W).map (workerRange N W)).flatten = List.range N := by
  rw [flatten_workerRange, workerStart_last N W hW, List.range_eq_range']

theorem workerCount_le (N W w v : ℕ) :
    workerCount N W w ≤ workerCount N W v + 1 := by
  unfold workerCount
  split <;> split <;> omega

theorem workerCount_empty (N W w : ℕ) (hNW : N < W) (hw : N ≤ w) :
    workerCount N W w = 0 := by
  unfold workerCount
  have hq : N / W = 0 := Nat.div_eq_of_lt hNW
  have hr : N % W = N := Nat.mod_eq_of_lt hNW
  simp [hq, hr, not_lt.mpr hw]

/-! ## Grid search evaluation, gather, reduction -/

/-- Modelled from the spec: the body of `grid_search_mpi` is not in the
source tree.  Per the spec, each worker evaluates the misfit of every
candidate in its assigned contiguous index range, in ascending index order.
`f i` abstracts the (pure, per the spec) misfit of the candidate at absolute
grid index `i`. -/
def grid_search_mpi (f : ℕ → ℚ) (N W rank : ℕ) : List ℚ :=
  (workerRange N W rank).map f

/-- Modelled from the spec: single-worker (serial) evaluation of the full
grid, one misfit value per grid index in grid order. -/
def grid_search_serial (f : ℕ → ℚ) (N : ℕ) : List ℚ :=
  (List.range N).map f

/-- From source (`GridSearchDC3MPI.py` line 162, `DCGridSearch3ParameterMPI.py`
line 120): the coordinator reduction is `results = np.concatenate(results)`
applied to the gathered per-worker partial sequences, nothing more. -/
def reduceResults (partials : List (List ℚ)) : List ℚ := partials.flatten

/-- C1: the globally reduced MisfitResult — per-worker partial sequences
gathered in worker-rank order (which is how `comm.gather` returns them, for
any worker completion order, modelled by sorting an arbitrary completion
permutation back to rank order) and concatenated — equals a single-worker
evaluation of the full grid, with entry `i` holding the misfit of grid
index `i`. -/
theorem grid_search_mpi_reduction_eq_serial (f : ℕ → ℚ) (N W : ℕ) (hW : 1 ≤ W)
    (order : List ℕ) (horder : order.Perm (List.range W)) :
    reduceResults ((order.insertionSort (· ≤ ·)).map (grid_search_mpi f N W)) =
        grid_search_serial f N ∧
      ∀ i, i < N →
        (reduceResults
          ((order.insertionSort (· ≤ ·)).map (grid_search_mpi f N W))).getD i 0 = f i := by
  have hsort : order.insertionSort (· ≤ ·) = List.range W :=
    List.eq_of_perm_of_sorted ((List.perm_insertionSort _ order).trans horder)
      (List.sorted_insertionSort _ order) (List.sorted_le_range W)
  have hmain : reduceResults ((order.insertionSort (· ≤ ·)).map (grid_search_mpi f N W)) =
      grid_search_serial f N := by
    rw [hsort]
    unfold reduceResults grid_search_mpi grid_search_serial
    rw [← flatten_workerRange_full N W hW, List.map_flatten, List.map_map]
    rfl
  refine ⟨hmain, ?_⟩
  intro i hi
  rw [hmain]
  unfold grid_search_serial
  rw [List.getD_eq_getElem _ _ (by simpa using hi)]
  simp

/-- Witness for C1 at `N = 5`, `W = 2`, completion order `[1, 0]`. -/
theorem grid_search_mpi_reduction_eq_serial_witness :
    reduceResults ((([1, 0] : List ℕ).insertionSort (· ≤ ·)).map
        (grid_search_mpi (fun i => (i : ℚ)) 5 2)) =
      grid_search_serial (fun i => (i : ℚ)) 5 :=
  (grid_search_mpi_reduction_eq_serial (fun i => (i : ℚ)) 5 2 (by decide)
    [1, 0] (by decide)).1

/-- C3: the WorkDistributor yields exactly `W` contiguous ranges which
concatenate (in rank order) to exactly `[0, N)` — so their union is `[0, N)`
with no overlap and no gap — with sizes differing by at most one; workers
past index `N` get empty ranges; and a 10-point grid over 3 workers is
split into sizes `[4, 3, 3]`. -/
theorem distribute_balanced_partition (N W : ℕ) (hW : 1 ≤ W) :
    (distribute N W).length = W ∧
    ((distribute N W).map (fun r => List.range' r.1 r.2)).flatten = List.range N ∧
    (∀ r1 ∈ distribute N W, ∀ r2 ∈ distribute N W, r1.2 ≤ r2.2 + 1) ∧
    (∀ w, w < W → N ≤ w → workerCount N W w = 0) ∧
    (distribute 10 3).map Prod.snd = [4, 3, 3] := by
  refine ⟨by simp [distribute], ?_, ?_, ?_, by decide⟩
  · rw [← flatten_workerRange_full N W hW]
    unfold distribute workerRange
    rw [List.map_map]
    rfl
  · intro r1 h1 r2 h2
    unfold distribute at h1 h2
    obtain ⟨w1, _, rfl⟩ := List.mem_map.mp h1
    obtain ⟨w2, _, rfl⟩ := List.mem_map.mp h2
    exact workerCount_le N W w1 w2
  · intro w hwW hNw
    exact workerCount_empty N W w (lt_of_le_of_lt hNw hwW) hNw

/-- Witness for C3 at `N = 10`, `W = 3`. -/
theorem distribute_balanced_partition_witness :
    (distribute 10 3).length = 3 ∧ (distribute 10 3).map Prod.snd = [4, 3, 3] :=
  ⟨(distribute_balanced_partition 10 3 (by decide)).1,
   (distribute_balanced_partition 10 3 (by decide)).2.2.2.2⟩

/-! ## Best-fit selection: `results.argmin()` and `grid.get` -/

/-- Minimum value of a list of misfit values (numpy `min` on a nonempty
array; the `[]` case is out of numpy's domain and returns 0 here). -/
def listMin : List ℚ → ℚ
  | [] => 0
  | [x] => x
  | x :: y :: ys => min x (listMin (y :: ys))

/-- From source (`GridSearchDC3MPI.py` line 164): `results.argmin()`.
numpy `argmin` returns the index of the first occurrence of the minimum
value. -/
def argmin : List ℚ → ℕ
  | [] => 0
  | [_] => 0
  | x :: y :: ys => if x ≤ listMin (y :: ys) then 0 else argmin (y :: ys) + 1

/-- From source (`GridSearchDC3MPI.py` line 164):
`best_mt = grid.get(results.argmin())`.  `decode` abstracts `grid.get`,
the pure index-to-candidate decode of the spec. -/
def bestFit {α : Type} (decode : ℕ → α) (results : List ℚ) : α :=
  decode (argmin results)

theorem listMin_le (l : List ℚ) : ∀ x ∈ l, listMin l ≤ x := by
  induction l with
  | nil => simp
  | cons a xs ih =>
      intro x hx
      rcases xs with _ | ⟨y, ys⟩
      · simp only [List.mem_singleton] at hx
        simp [listMin, hx]
      · rcases List.mem_cons.mp hx with h | h
        · simp [listMin, h]
        · calc listMin (a :: y :: ys) ≤ listMin (y :: ys) := by
                simp [listMin]
            _ ≤ x := ih x h

theorem argmin_spec (l : List ℚ) (h : l ≠ []) :
    argmin l < l.length ∧ l.getD (argmin l) 0 = listMin l ∧
      ∀ j, j < l.length → l.getD j 0 = listMin l → argmin l ≤ j := by
  induction l with
  | nil => exact absurd rfl h
  | cons a xs ih =>
      rcases xs with _ | ⟨y, ys⟩
      · refine ⟨by simp [argmin], by simp [argmin, listMin], ?_⟩
        intro j _ _
        simp [argmin]
      · by_cases hle : a ≤ listMin (y :: ys)
        · refine ⟨by simp [argmin, hle], ?_, ?_⟩
          · simp [argmin, hle, listMin, min_eq_left hle]
          · intro j _ _
            simp [argmin, hle]
        · have hlt : listMin (y :: ys) < a := lt_of_not_le hle
          obtain ⟨ih1, ih2, ih3⟩ := ih (by simp)
          have hmin : listMin (a :: y :: ys) = listMin (y :: ys) := by
            simp [listMin, min_eq_right (le_of_lt hlt)]
          refine ⟨?_, ?_, ?_⟩
          · simpa [argmin, hle] using Nat.succ_lt_succ ih1
          · simpa [argmin, hle, hmin] using ih2
          · intro j hj hjv
            rcases j with _ | j
            · exfalso
              rw [hmin] at hjv
              simp only [List.getD, List.getElem?_cons_zero, Option.getD_some] at hjv
              exact absurd hjv (ne_of_gt hlt)
            · have : (y :: ys).getD j 0 = listMin (y :: ys) := by
                rw [hmin] at hjv
                simpa [List.getD] using hjv
              have := ih3 j (by simpa using hj) this
              simp only [argmin, if_neg hle]
              omega

/-- C4: the selected best-fit candidate is the decode of the smallest index
attaining the minimum misfit value: `argmin` is in range, its entry is the
minimum, every other index attaining the minimum is `≥` it, and the source
selection `grid.get(results.argmin())` is exactly `decode` at that index. -/
theorem bestFit_first_occurrence_argmin {α : Type} (decode : ℕ → α)
    (results : List ℚ) (h : results ≠ []) :
    bestFit decode results = decode (argmin results) ∧
    argmin results < results.length ∧
    results.getD (argmin results) 0 = listMin results ∧
    (∀ x ∈ results, listMin results ≤ x) ∧
    (∀ j, j < results.length → results.getD j 0 = listMin results →
      argmin results ≤ j) := by
  obtain ⟨h1, h2, h3⟩ := argmin_spec results h
  exact ⟨rfl, h1, h2, listMin_le results, h3⟩

/-- Witness for C4 on the list `[3, 1, 2, 1]` (tied minimum at indices 1
and 3): selection picks index 1, the first occurrence. -/
theorem bestFit_first_occurrence_argmin_witness :
    bestFit (fun i => i) ([3, 1, 2, 1] : List ℚ) = argmin [3, 1, 2, 1] ∧
    argmin ([3, 1, 2, 1] : List ℚ) = 1 :=
  ⟨(bestFit_first_occurrence_argmin (fun i => i) [3, 1, 2, 1] (by decide)).1,
   by decide⟩

/-! ## Incomplete worker results: what the source reduction actually does -/

theorem sum_workerCount (N W : ℕ) (hW : 1 ≤ W) :
    ((List.range W).map (workerCount N W)).sum = N := by
  have h := congrArg List.length (flatten_workerRange_full N W hW)
  simpa [List.length_flatten, List.map_map, workerRange, Function.comp_def] using h

theorem sum_map_if_drop (c : ℕ → ℕ) (k : ℕ) (l : List ℕ) (hk : k ∈ l)
    (hnd : l.Nodup) :
    (l.map (fun w => if w = k then 0 else c w)).sum + c k = (l.map c).sum := by
  induction l with
  | nil => exact absurd hk (List.not_mem_nil k)
  | cons a l ih =>
      rcases List.mem_cons.mp hk with heq | h
      · subst heq
        have ha : k ∉ l := (List.nodup_cons.mp hnd).1
        simp only [List.map_cons, List.sum_cons]
        rw [if_pos trivial]
        have heq2 : l.map (fun w => if w = k then 0 else c w) = l.map c := by
          apply List.map_congr_left
          intro x hx
          have hxa : x ≠ k := fun hxa => ha (hxa ▸ hx)
          simp [hxa]
        rw [heq2]
        omega
      · have hne : a ≠ k := by
          rintro rfl
          exact (List.nodup_cons.mp hnd).1 h
        simp only [List.map_cons, List.sum_cons, if_neg hne]
        have := ih h (List.nodup_cons.mp hnd).2
        omega

/-- C2 counterexample: grid size `N = 2`, two workers, worker 1 returns no
values.  The source reduction (`comm.gather` then `np.concatenate`, lines
157–164 of `GridSearchDC3MPI.py`) raises nothing: it produces the
partially-filled MisfitResult `[5]` of length 1 ≠ 2, and best-fit selection
`grid.get(results.argmin())` still proceeds, yielding the decode of index 0
— contradicting the claim that an IncompleteResultError is raised and no
MisfitResult and no best-fit selection is produced. -/
theorem reduce_incomplete_counterexample :
    reduceResults [[(5 : ℚ)], []] = [5] ∧
    (reduceResults [[(5 : ℚ)], []]).length ≠ 2 ∧
    bestFit (fun i => i) (reduceResults [[(5 : ℚ)], []]) = 0 := by
  refine ⟨rfl, by decide, rfl⟩

/-- C2 amended: the reduction phase performs no coverage check and defines
no IncompleteResultError: `np.concatenate` concatenates whatever partial
sequences the workers returned.  If a worker with a nonempty assigned range
contributes nothing, the reduction silently yields a MisfitResult of length
`N - workerCount N W k < N`, and best-fit selection still proceeds on it. -/
theorem reduce_incomplete_amended (f : ℕ → ℚ) (N W k : ℕ) (hW : 1 ≤ W)
    (hk : k < W) (hc : 0 < workerCount N W k) :
    (reduceResults ((List.range W).map
        (fun w => if w = k then [] else grid_search_mpi f N W w))).length
      = N - workerCount N W k ∧
    (reduceResults ((List.range W).map
        (fun w => if w = k then [] else grid_search_mpi f N W w))).length < N := by
  have hs := sum_map_if_drop (workerCount N W) k (List.range W)
    (List.mem_range.mpr hk) (List.nodup_range W)
  rw [sum_workerCount N W hW] at hs
  have hlen : (reduceResults ((List.range W).map
      (fun w => if w = k then [] else grid_search_mpi f N W w))).length
      = ((List.range W).map (fun w => if w = k then 0 else workerCount N W w)).sum := by
    unfold reduceResults
    rw [List.length_flatten, List.map_map]
    congr 1
    apply List.map_congr_left
    intro w _
    by_cases hwk : w = k <;>
      simp [hwk, Function.comp_def, grid_search_mpi, workerRange]
  rw [hlen]
  omega

/-- Witness for the amended C2 at `N = 2`, `W = 2`, dropped worker `k = 1`. -/
theorem reduce_incomplete_amended_witness :
    (reduceResults ((List.range 2).map
        (fun w => if w = 1 then [] else grid_search_mpi (fun i => (i : ℚ)) 2 2 w))).length
      = 2 - workerCount 2 2 1 :=
  (reduce_incomplete_amended (fun i => (i : ℚ)) 2 2 1 (by decide) (by decide)
    (by decide)).1

/-! ## Event traces of the MPI scripts

Each script is straight-line code; its per-rank event trace in statement
order is embedded directly from the source.  `comm.bcast` and `comm.gather`
are blocking collectives (mpi4py): a rank's `evaluate` can only start after
its `bcast` calls returned, and the coordinator's post-`gather` statements
run only after `gather` returned with every rank's contribution. -/

inductive Event : Type
  | readData | processData | readGreens | convolveWavelet | processGreens
  | bcastData | bcastGreens | evaluate | gather | reduceConcat | saveResults
  | selectBest | plotResults
  deriving DecidableEq

/-- From source (`examples/DCGridSearch3ParameterMPI.py` lines 80–127):
per-rank statement-order event trace.  Note line 98: the
`greens.convolve(trapezoid(rise_time=1.))` call is commented out, so no
convolution event occurs. -/
def traceDC3Param (rank : ℕ) : List Event :=
  (if rank = 0 then
    [Event.readData, Event.processData, Event.readGreens, Event.processGreens]
   else []) ++
  [Event.bcastData, Event.bcastGreens, Event.evaluate, Event.gather] ++
  (if rank = 0 then
    [Event.reduceConcat, Event.saveResults, Event.selectBest, Event.plotResults]
   else [])

/-- From source (`examples/GridSearchDC3MPI.py` lines 118–172): per-rank
statement-order event trace; `greens.convolve(wavelet)` at line 140. -/
def traceGridSearchDC3 (rank : ℕ) : List Event :=
  (if rank = 0 then
    [Event.readData, Event.processData, Event.readGreens,
     Event.convolveWavelet, Event.processGreens]
   else []) ++
  [Event.bcastData, Event.bcastGreens, Event.evaluate, Event.gather] ++
  (if rank = 0 then
    [Event.reduceConcat, Event.saveResults, Event.selectBest, Event.plotResults]
   else [])

/-- From source (`setup/code_generator.py` lines 427–492, the
`GridSearchMPI` template): per-rank statement-order event trace;
`greens.convolve(wavelet)` at line 455; `grid.save` is commented out. -/
def traceGeneratedMPI (rank : ℕ) : List Event :=
  (if rank = 0 then
    [Event.readData, Event.processData, Event.readGreens,
     Event.convolveWavelet, Event.processGreens]
   else []) ++
  [Event.bcastData, Event.bcastGreens, Event.evaluate, Event.gather] ++
  (if rank = 0 then
    [Event.reduceConcat, Event.selectBest, Event.plotResults]
   else [])

/-- C5: in every run and on every rank the phases are strictly ordered —
each trace holds exactly one broadcast of the waveform collection, one of
the Green's collection and one evaluation, both broadcasts precede the
evaluation, the evaluation precedes the gather, and on the coordinator
(rank 0) the gather precedes the concatenation-reduction — for all three
MPI scripts in the source tree. -/
theorem mpi_phase_ordering (rank : ℕ) :
    ((traceDC3Param rank).count Event.bcastData = 1 ∧
     (traceDC3Param rank).count Event.bcastGreens = 1 ∧
     (traceDC3Param rank).count Event.evaluate = 1 ∧
     (traceDC3Param rank).indexOf Event.bcastData
       < (traceDC3Param rank).indexOf Event.evaluate ∧
     (traceDC3Param rank).indexOf Event.bcastGreens
       < (traceDC3Param rank).indexOf Event.evaluate ∧
     (traceDC3Param rank).indexOf Event.evaluate
       < (traceDC3Param rank).indexOf Event.gather) ∧
    ((traceGridSearchDC3 rank).count Event.bcastData = 1 ∧
     (traceGridSearchDC3 rank).count Event.bcastGreens = 1 ∧
     (traceGridSearchDC3 rank).count Event.evaluate = 1 ∧
     (traceGridSearchDC3 rank).indexOf Event.bcastData
       < (traceGridSearchDC3 rank).indexOf Event.evaluate ∧
     (traceGridSearchDC3 rank).indexOf Event.bcastGreens
       < (traceGridSearchDC3 rank).indexOf Event.evaluate ∧
     (traceGridSearchDC3 rank).indexOf Event.evaluate
       < (traceGridSearchDC3 rank).indexOf Event.gather) ∧
    ((traceGeneratedMPI rank).indexOf Event.bcastData
       < (traceGeneratedMPI rank).indexOf Event.evaluate ∧
     (traceGeneratedMPI rank).indexOf Event.bcastGreens
       < (traceGeneratedMPI rank).indexOf Event.evaluate) ∧
    ((traceDC3Param 0).indexOf Event.gather
       < (traceDC3Param 0).indexOf Event.reduceConcat ∧
     (traceGridSearchDC3 0).indexOf Event.gather
       < (traceGridSearchDC3 0).indexOf Event.reduceConcat ∧
     (traceGeneratedMPI 0).indexOf Event.gather
       < (traceGeneratedMPI 0).indexOf Event.reduceConcat) := by
  by_cases h : rank = 0
  · subst h
    decide
  · simp only [traceDC3Param, traceGridSearchDC3, traceGeneratedMPI, if_neg h]
    decide

/-- C7 counterexample: the `DCGridSearch3ParameterMPI.py` run performs no
wavelet convolution at all — the `greens.convolve` call at line 98 is
commented out — so its trace contains zero convolution events on every
rank (shown at ranks 0 and 1; nonzero ranks share one trace shape),
contradicting "in every run ... convolved ... exactly once". -/
theorem convolve_missing_counterexample :
    (traceDC3Param 0).count Event.convolveWavelet = 0 ∧
    (traceDC3Param 1).count Event.convolveWavelet = 0 := by
  decide

/-- C7 amended: in the `GridSearchDC3MPI.py` run and in the generated
`GridSearchMPI` scripts the wavelet is convolved with the Green's-function
basis exactly once per run (once on the coordinator, zero times on other
ranks, the convolved collection then being broadcast), and that convolution
precedes the broadcast of the Green's collection and every misfit
evaluation; the `DCGridSearch3ParameterMPI.py` run performs no convolution
at all. -/
theorem convolve_once_before_evaluation (rank : ℕ) :
    ((traceGridSearchDC3 rank).count Event.convolveWavelet
       = if rank = 0 then 1 else 0) ∧
    ((traceGeneratedMPI rank).count Event.convolveWavelet
       = if rank = 0 then 1 else 0) ∧
    ((traceGridSearchDC3 0).indexOf Event.convolveWavelet
       < (traceGridSearchDC3 0).indexOf Event.bcastGreens) ∧
    ((traceGridSearchDC3 0).indexOf Event.convolveWavelet
       < (traceGridSearchDC3 0).indexOf Event.evaluate) ∧
    ((traceGeneratedMPI 0).indexOf Event.convolveWavelet
       < (traceGeneratedMPI 0).indexOf Event.evaluate) ∧
    (traceDC3Param rank).count Event.convolveWavelet = 0 := by
  by_cases h : rank = 0
  · subst h
    decide
  · simp only [traceDC3Param, traceGridSearchDC3, traceGeneratedMPI, if_neg h]
    decide

/-! ## Misfit function with bounded time-shift search

Modelled from the spec: the body of `mtuq.misfit.cap.misfit` is not in the
source tree (the examples only configure it with `time_shift_max` and
`time_shift_groups`).  Per the spec it slides the synthetic over the
observed segment within `[-time_shift_max, +time_shift_max]`, computes the
L2 norm of the residual at each shift, keeps the minimum, and resolves ties
to the smallest-magnitude shift. -/

/-- Modelled from the spec: sample of the synthetic waveform at integer
time `t`, zero outside the recorded window. -/
def synAt (syn : List ℤ) (t : ℤ) : ℤ :=
  if 0 ≤ t ∧ t < syn.length then syn.getD t.toNat 0 else 0

/-- Modelled from the spec: L2 norm of the residual between the observed
segment and the synthetic shifted by `s` samples. -/
def residualNorm (obs syn : List ℤ) (s : ℤ) : ℤ :=
  ((List.range obs.length).map
    (fun i => (obs.getD i 0 - synAt syn ((i : ℤ) - s)) ^ 2)).sum

/-- Modelled from the spec: the allowed shifts `[-smax, smax]`, enumerated
in order of increasing magnitude (zero lag first). -/
def shiftCandidates : ℕ → List ℤ
  | 0 => [0]
  | n + 1 => shiftCandidates n ++ [((n : ℤ) + 1), -((n : ℤ) + 1)]

/-- First-occurrence minimization of `g` over a list of shifts. -/
def searchShifts (g : ℤ → ℤ) : List ℤ → ℤ × ℤ
  | [] => (0, g 0)
  | [s] => (s, g s)
  | s :: s2 :: rest =>
      if g s ≤ (searchShifts g (s2 :: rest)).2 then (s, g s)
      else searchShifts g (s2 :: rest)

/-- Modelled from the spec: the (shift, misfit) pair retained by the
bounded time-shift search. -/
def bestShift (obs syn : List ℤ) (smax : ℕ) : ℤ × ℤ :=
  searchShifts (residualNorm obs syn) (shiftCandidates smax)

/-- Modelled from the spec: the scalar misfit returned by the search. -/
def misfitValue (obs syn : List ℤ) (smax : ℕ) : ℤ :=
  (bestShift obs syn smax).2

theorem residualNorm_nonneg (obs syn : List ℤ) (s : ℤ) :
    0 ≤ residualNorm obs syn s := by
  unfold residualNorm
  apply List.sum_nonneg
  intro x hx
  obtain ⟨i, _, rfl⟩ := List.mem_map.mp hx
  exact sq_nonneg _

theorem residualNorm_self (obs : List ℤ) : residualNorm obs obs 0 = 0 := by
  unfold residualNorm
  apply List.sum_eq_zero
  intro x hx
  obtain ⟨i, hi, rfl⟩ := List.mem_map.mp hx
  have hi2 : i < obs.length := List.mem_range.mp hi
  have hcond : (0 : ℤ) ≤ (i : ℤ) - 0 ∧ (i : ℤ) - 0 < obs.length := by
    constructor <;> simp [hi2]
  rw [synAt, if_pos hcond]
  simp

theorem searchShifts_eq_cons (g : ℤ → ℤ) (a b : ℤ) (ys : List ℤ) :
    searchShifts g (a :: b :: ys) =
      if g a ≤ (searchShifts g (b :: ys)).2 then (a, g a)
      else searchShifts g (b :: ys) := by
  rfl

theorem searchShifts_spec (g : ℤ → ℤ) (l : List ℤ) (h : l ≠ []) :
    (searchShifts g l).1 ∈ l ∧ (searchShifts g l).2 = g (searchShifts g l).1 ∧
      ∀ s ∈ l, (searchShifts g l).2 ≤ g s := by
  induction l with
  | nil => exact absurd rfl h
  | cons a xs ih =>
      rcases xs with _ | ⟨b, ys⟩
      · refine ⟨by simp [searchShifts], rfl, ?_⟩
        intro s hs
        simp only [List.mem_singleton] at hs
        simp [searchShifts, hs]
      · obtain ⟨ih1, ih2, ih3⟩ := ih (by simp)
        by_cases hle : g a ≤ (searchShifts g (b :: ys)).2
        · rw [searchShifts_eq_cons, if_pos hle]
          refine ⟨List.mem_cons_self a _, rfl, ?_⟩
          intro s hs
          rcases List.mem_cons.mp hs with heq | hs
          · rw [heq]
          · exact le_trans hle (ih3 s hs)
        · rw [searchShifts_eq_cons, if_neg hle]
          refine ⟨List.mem_cons_of_mem _ ih1, ih2, ?_⟩
          intro s hs
          rcases List.mem_cons.mp hs with heq | hs
          · rw [heq]
            exact le_of_lt (lt_of_not_le hle)
          · exact ih3 s hs

theorem searchShifts_first (g : ℤ → ℤ) (l : List ℤ) (h : l ≠ []) :
    ∃ l1 l2, l = l1 ++ (searchShifts g l).1 :: l2 ∧
      ∀ s ∈ l1, (searchShifts g l).2 < g s := by
  induction l with
  | nil => exact absurd rfl h
  | cons a xs ih =>
      rcases xs with _ | ⟨b, ys⟩
      · exact ⟨[], [], by simp [searchShifts], by simp⟩
      · by_cases hle : g a ≤ (searchShifts g (b :: ys)).2
        · refine ⟨[], b :: ys, ?_, by simp⟩
          rw [searchShifts_eq_cons, if_pos hle]
          simp
        · obtain ⟨l1, l2, hsplit, hlt⟩ := ih (by simp)
          refine ⟨a :: l1, l2, ?_, ?_⟩
          · rw [searchShifts_eq_cons, if_neg hle]
            rw [List.cons_append, ← hsplit]
          · intro s hs
            rw [searchShifts_eq_cons, if_neg hle]
            rcases List.mem_cons.mp hs with heq | hs
            · subst heq
              exact lt_of_not_le hle
            · exact hlt s hs

theorem shiftCandidates_head (n : ℕ) :
    ∃ rest, shiftCandidates n = 0 :: rest := by
  induction n with
  | zero => exact ⟨[], rfl⟩
  | succ n ih =>
      obtain ⟨rest, hr⟩ := ih
      exact ⟨rest ++ [((n : ℤ) + 1), -((n : ℤ) + 1)], by simp [shiftCandidates, hr]⟩

theorem mem_shiftCandidates (n : ℕ) (s : ℤ) :
    s ∈ shiftCandidates n ↔ s.natAbs ≤ n := by
  induction n with
  | zero =>
      simp only [shiftCandidates, List.mem_singleton, Nat.le_zero,
        Int.natAbs_eq_zero]
  | succ n ih =>
      simp only [shiftCandidates, List.mem_append, List.mem_cons,
        List.mem_singleton, List.not_mem_nil, or_false, ih]
      constructor
      · rintro (h | h | h)
        · omega
        · subst h; omega
        · subst h; omega
      · intro h
        rcases Nat.lt_or_ge s.natAbs (n + 1) with h2 | h2
        · exact Or.inl (Nat.lt_succ_iff.mp h2)
        · have heq : s.natAbs = n + 1 := le_antisymm h h2
          rcases Int.natAbs_eq s with he | he
          · right; left; omega
          · right; right; omega

theorem shiftCandidates_sorted (n : ℕ) :
    (shiftCandidates n).Pairwise (fun a b => a.natAbs ≤ b.natAbs) := by
  induction n with
  | zero => simp [shiftCandidates]
  | succ n ih =>
      simp only [shiftCandidates]
      rw [List.pairwise_append]
      refine ⟨ih, ?_, ?_⟩
      · simp only [List.pairwise_cons, List.mem_singleton, List.pairwise_singleton,
          forall_eq, and_true]
        rw [Int.natAbs_neg]
        simp
      · intro a ha b hb
        have h1 : a.natAbs ≤ n := (mem_shiftCandidates n a).mp ha
        have h2 : b.natAbs = n + 1 := by
          rcases List.mem_cons.mp hb with heq | hb2
          · subst heq; omega
          · have heq := List.mem_singleton.mp hb2
            subst heq; omega
        omega

theorem searchShifts_min_magnitude (g : ℤ → ℤ) (l : List ℤ) (h : l ≠ [])
    (hsorted : l.Pairwise (fun a b => a.natAbs ≤ b.natAbs))
    (s : ℤ) (hs : s ∈ l) (hmin : g s = (searchShifts g l).2) :
    (searchShifts g l).1.natAbs ≤ s.natAbs := by
  obtain ⟨l1, l2, hsplit, hlt⟩ := searchShifts_first g l h
  rw [hsplit] at hs
  rcases List.mem_append.mp hs with h1 | h1
  · exact absurd hmin (ne_of_gt (hlt s h1))
  · rcases List.mem_cons.mp h1 with heq | h2
    · rw [heq]
    · rw [hsplit] at hsorted
      have hp := (List.pairwise_append.mp hsorted).2.1
      exact (List.pairwise_cons.mp hp).1 s h2

theorem shiftCandidates_ne_nil (n : ℕ) : shiftCandidates n ≠ [] := by
  obtain ⟨rest, h⟩ := shiftCandidates_head n
  simp [h]

theorem bestShift_self (obs : List ℤ) (smax : ℕ) :
    bestShift obs obs smax = (0, 0) := by
  unfold bestShift
  obtain ⟨rest, hrest⟩ := shiftCandidates_head smax
  rw [hrest]
  rcases rest with _ | ⟨b, ys⟩
  · simp [searchShifts, residualNorm_self]
  · rw [searchShifts_eq_cons]
    have hnn : 0 ≤ (searchShifts (residualNorm obs obs) (b :: ys)).2 := by
      obtain ⟨_, m2, _⟩ :=
        searchShifts_spec (residualNorm obs obs) (b :: ys) (by simp)
      rw [m2]
      exact residualNorm_nonneg obs obs _
    rw [residualNorm_self, if_pos hnn]

/-- C6: the scalar returned by the bounded time-shift search is
non-negative; the retained shift lies within `[-smax, smax]`, its residual
norm is the returned misfit and is minimal over all allowed shifts; among
tying shifts the retained one has the smallest magnitude; and on an
observed segment identical to the synthetic the misfit is 0 with optimal
shift 0. -/
theorem misfit_nonneg_zero_shift_tie (obs syn : List ℤ) (smax : ℕ) :
    0 ≤ misfitValue obs syn smax ∧
    (bestShift obs syn smax).1.natAbs ≤ smax ∧
    misfitValue obs syn smax = residualNorm obs syn (bestShift obs syn smax).1 ∧
    (∀ s : ℤ, s.natAbs ≤ smax →
      misfitValue obs syn smax ≤ residualNorm obs syn s) ∧
    (∀ s : ℤ, s.natAbs ≤ smax →
      residualNorm obs syn s = misfitValue obs syn smax →
      (bestShift obs syn smax).1.natAbs ≤ s.natAbs) ∧
    (obs = syn → misfitValue obs syn smax = 0 ∧ (bestShift obs syn smax).1 = 0) := by
  obtain ⟨hmem, heq, hmin⟩ := searchShifts_spec (residualNorm obs syn)
    (shiftCandidates smax) (shiftCandidates_ne_nil smax)
  refine ⟨?_, ?_, ?_, ?_, ?_, ?_⟩
  · rw [misfitValue, bestShift, heq]
    exact residualNorm_nonneg obs syn _
  · exact (mem_shiftCandidates smax _).mp hmem
  · exact heq
  · intro s hs
    exact hmin s ((mem_shiftCandidates smax s).mpr hs)
  · intro s hs htie
    exact searchShifts_min_magnitude (residualNorm obs syn) (shiftCandidates smax)
      (shiftCandidates_ne_nil smax) (shiftCandidates_sorted smax) s
      ((mem_shiftCandidates smax s).mpr hs) htie
  · intro hsame
    subst hsame
    rw [misfitValue, bestShift_self]
    exact ⟨rfl, rfl⟩

/-- Witness for C6 on `obs = syn = [1, 2, 3]`, `smax = 2`: misfit 0 at
shift 0, and non-negative. -/
theorem misfit_nonneg_zero_shift_tie_witness :
    0 ≤ misfitValue [1, 2, 3] [1, 2, 3] 2 ∧
    misfitValue [1, 2, 3] [1, 2, 3] 2 = 0 ∧
    (bestShift [1, 2, 3] [1, 2, 3] 2).1 = 0 := by
  obtain ⟨h1, _, _, _, _, h6⟩ := misfit_nonneg_zero_shift_tie [1, 2, 3] [1, 2, 3] 2
  obtain ⟨h2, h3⟩ := h6 rfl
  exact ⟨h1, h2, h3⟩

/-! ## Error taxonomy and propagation policy

Modelled from the spec: the MisfitFunction body (`mtuq.misfit.cap`) is not
in the source tree.  The spec's taxonomy: MissingDataError (zero-length
station segment, recoverable at the MisfitFunction boundary by a logged
warning and a zero contribution), and InvalidConfiguration,
IndexOutOfRange, IncompleteResultError, which propagate uncaught. -/

inductive MTUQError : Type
  | missingData
  | invalidConfiguration
  | indexOutOfRange
  | incompleteResult
  deriving DecidableEq

/-- Modelled from the spec: per-station misfit evaluation raises
MissingDataError when the observed or synthetic segment has length zero,
and otherwise yields the station-weighted time-shift-search misfit. -/
def stationMisfit (obs syn : List ℤ) (weight : ℤ) (smax : ℕ) :
    Except MTUQError ℤ :=
  if obs.length = 0 ∨ syn.length = 0 then Except.error MTUQError.missingData
  else Except.ok (weight * misfitValue obs syn smax)

/-- Modelled from the spec: the MisfitFunction boundary catches a
per-station MissingDataError and converts it to a zero contribution (the
warning is logged, not modelled); any other outcome passes through. -/
def catchMissingData (r : Except MTUQError ℤ) : Except MTUQError ℤ :=
  match r with
  | Except.error MTUQError.missingData => Except.ok 0
  | other => other

/-- Modelled from the spec: the per-candidate misfit over all stations of a
wave-group, each station a triple (observed, synthetic, weight), summing
boundary-handled station contributions; a surviving error aborts. -/
def totalMisfit (stations : List (List ℤ × List ℤ × ℤ)) (smax : ℕ) :
    Except MTUQError ℤ :=
  match stations with
  | [] => Except.ok 0
  | st :: rest =>
      match catchMissingData (stationMisfit st.1 st.2.1 st.2.2 smax),
          totalMisfit rest smax with
      | Except.ok v, Except.ok r => Except.ok (v + r)
      | Except.error e, _ => Except.error e
      | _, Except.error e => Except.error e

/-- C8: a zero-length observed or synthetic station segment raises
MissingDataError; the MisfitFunction boundary converts exactly that error
to a zero contribution so the run continues (the station drops out of the
total); every other error kind passes through the boundary uncaught. -/
theorem missing_data_policy (obs syn : List ℤ) (w : ℤ) (smax : ℕ)
    (stations : List (List ℤ × List ℤ × ℤ)) :
    stationMisfit [] syn w smax = Except.error MTUQError.missingData ∧
    stationMisfit obs [] w smax = Except.error MTUQError.missingData ∧
    catchMissingData (stationMisfit [] syn w smax) = Except.ok 0 ∧
    (∀ e : MTUQError, e ≠ MTUQError.missingData →
      catchMissingData (Except.error e) = Except.error e) ∧
    totalMisfit (([], syn, w) :: stations) smax = totalMisfit stations smax := by
  refine ⟨by simp [stationMisfit], by simp [stationMisfit], by simp [stationMisfit]; rfl,
    ?_, ?_⟩
  · intro e he
    cases e
    · exact absurd rfl he
    · rfl
    · rfl
    · rfl
  · show (match catchMissingData (stationMisfit [] syn w smax),
        totalMisfit stations smax with
      | Except.ok v, Except.ok r => Except.ok (v + r)
      | Except.error e, _ => Except.error e
      | _, Except.error e => Except.error e) = totalMisfit stations smax
    have h0 : catchMissingData (stationMisfit [] syn w smax) = Except.ok 0 := by
      simp [stationMisfit]
      rfl
    rw [h0]
    cases totalMisfit stations smax with
    | ok r => simp
    | error e => rfl

/-- Witness for C8: empty observed segment with `syn = [1]`, weight 2,
no shift search, one other station untouched; and an IndexOutOfRange error
passes the boundary unchanged. -/
theorem missing_data_policy_witness :
    catchMissingData (stationMisfit [] [1] 2 0) = Except.ok 0 ∧
    catchMissingData (Except.error MTUQError.indexOutOfRange) =
      Except.error MTUQError.indexOutOfRange ∧
    totalMisfit [([], [1], 2)] 0 = totalMisfit [] 0 := by
  obtain ⟨_, _, h3, h4, h5⟩ := missing_data_policy [] [1] 2 0 []
  exact ⟨h3, h4 _ (by decide), h5⟩

/-! ## `TextHeader.__init__` -/

inductive PyError : Type
  | nameError
  | assertionError
  deriving DecidableEq

structure TextHeaderState where
  items : List (String × ℚ × ℚ)

/-- From source (`mtuq/graphics/header.py` lines 53–61): the local names in
scope inside the validation loop body of `TextHeader.__init__` — the
parameters `self` and `items` and the loop targets `text` and `p`.  The
name `pos` read by the asserts is not among them. -/
inductive PyName : Type
  | selfName
  | itemsName
  | textName
  | pName
  | posName
  deriving DecidableEq

def loopScope : List PyName := [PyName.selfName, PyName.itemsName,
  PyName.textName, PyName.pName]

def lookupName (n : PyName) : Option Unit :=
  if n ∈ loopScope then some () else none

/-- From source (lines 55–58): one iteration of the validation loop.  The
first assert checks `type(text) in [str, unicode]` (true for a string
entry); the second then evaluates `0. <= pos[0] <= 1.`, whose leftmost
comparison reads the name `pos` — unbound, hence a NameError. -/
def textHeaderLoopBody (_entry : String × ℚ × ℚ) : Except PyError Unit :=
  match lookupName PyName.posName with
  | none => Except.error PyError.nameError
  | some _ => Except.ok ()

def textHeaderLoop : List (String × ℚ × ℚ) → Except PyError Unit
  | [] => Except.ok ()
  | entry :: rest =>
      match textHeaderLoopBody entry with
      | Except.ok _ => textHeaderLoop rest
      | Except.error e => Except.error e

/-- From source (lines 53–61): `TextHeader.__init__` runs the validation
loop over `items`, then (only if no exception escaped) assigns
`self.items = items`. -/
def textHeaderInit (items : List (String × ℚ × ℚ)) :
    Except PyError TextHeaderState :=
  match textHeaderLoop items with
  | Except.ok _ => Except.ok ⟨items⟩
  | Except.error e => Except.error e

/-- C9: `TextHeader.__init__` raises a NameError for every nonempty items
list (the loop body reads the undefined name `pos` on its first iteration,
before `self.items` is assigned), and succeeds exactly on the empty list. -/
theorem textHeaderInit_nameError (items : List (String × ℚ × ℚ)) :
    textHeaderInit items =
      if items = [] then Except.ok ⟨items⟩
      else Except.error PyError.nameError := by
  rcases items with _ | ⟨entry, rest⟩
  · rfl
  · rfl

/-! ## `_check_ext` and `os.path.splitext` -/

/-- From the Python standard library (`str.rfind`): index of the last
occurrence of `c` in the suffix of the string starting at position `i`,
or -1 if absent. -/
def pyRfindAux (c : Char) : List Char → ℕ → ℤ
  | [], _ => -1
  | x :: xs, i =>
      if pyRfindAux c xs (i + 1) = -1 then (if x = c then (i : ℤ) else -1)
      else pyRfindAux c xs (i + 1)

/-- Python `p.rfind(c)`: index of the last occurrence of `c`, or -1. -/
def pyRfind (p : List Char) (c : Char) : ℤ := pyRfindAux c p 0

/-- From the Python standard library (`posixpath._splitext` with `sep` '/'
and `extsep` '.'): split the extension off at the last dot, provided it
lies after the last slash and the basename does not consist solely of
leading dots up to it. -/
def splitext (p : List Char) : List Char × List Char :=
  if pyRfind p '/' < pyRfind p '.' then
    if ((p.drop (pyRfind p '/' + 1).toNat).take
        (pyRfind p '.' - pyRfind p '/' - 1).toNat).all (fun ch => ch == '.') then
      (p, [])
    else
      (p.take (pyRfind p '.').toNat, p.drop (pyRfind p '.').toNat)
  else (p, [])

def lowerChars (l : List Char) : List Char := l.map Char.toLower

def psChars : List Char := ['p', 's']

/-- From source (`mtuq/graphics/uq.py` lines 333–340): `_check_ext` splits
the extension and compares `ext.lower()` against the dotless literal
`'ps'`; on mismatch it returns the name with `'.ps'`, otherwise the name
with `'.' + ext`. -/
def check_ext (filename : List Char) : List Char × List Char :=
  if lowerChars (splitext filename).2 ≠ psChars then
    ((splitext filename).1, '.' :: psChars)
  else ((splitext filename).1, '.' :: (splitext filename).2)

theorem pyRfindAux_spec (c : Char) (l : List Char) (i : ℕ) :
    pyRfindAux c l i = -1 ∨
      ∃ j : ℕ, pyRfindAux c l i = (i : ℤ) + (j : ℤ) ∧ j < l.length ∧
        l.getD j ' ' = c := by
  induction l generalizing i with
  | nil => exact Or.inl rfl
  | cons x xs ih =>
      rcases ih (i + 1) with h | ⟨j, hj, hjl, hjc⟩
      · by_cases hx : x = c
        · refine Or.inr ⟨0, ?_, by simp, by simpa using hx⟩
          simp only [pyRfindAux, if_pos h, if_pos hx]
          simp
        · exact Or.inl (by simp only [pyRfindAux, if_pos h, if_neg hx])
      · have hne : pyRfindAux c xs (i + 1) ≠ -1 := by
          rw [hj]
          omega
        refine Or.inr ⟨j + 1, ?_, by simpa using Nat.succ_lt_succ hjl,
          by simpa using hjc⟩
        simp only [pyRfindAux, if_neg hne]
        rw [hj]
        push_cast
        ring

theorem pyRfind_ge (p : List Char) (c : Char) : -1 ≤ pyRfind p c := by
  unfold pyRfind
  rcases pyRfindAux_spec c p 0 with h | ⟨j, hj, _, _⟩
  · rw [h]
  · rw [hj]
    omega

/-- The extension returned by `splitext` is empty or starts with a dot:
this is the structural fact making the dotless comparison in `_check_ext`
unsatisfiable. -/
theorem splitext_ext_shape (p : List Char) :
    (splitext p).2 = [] ∨ ∃ rest, (splitext p).2 = '.' :: rest := by
  unfold splitext
  by_cases h1 : pyRfind p '/' < pyRfind p '.'
  · rw [if_pos h1]
    by_cases h2 : ((p.drop (pyRfind p '/' + 1).toNat).take
        (pyRfind p '.' - pyRfind p '/' - 1).toNat).all (fun ch => ch == '.')
    · rw [if_pos h2]
      exact Or.inl rfl
    · rw [if_neg h2]
      right
      rcases pyRfindAux_spec '.' p 0 with hdot | ⟨j, hj, hjl, hjc⟩
      · exfalso
        have hsep := pyRfind_ge p '/'
        unfold pyRfind at h1
        rw [hdot] at h1
        unfold pyRfind at hsep
        omega
      · have hdotj : pyRfind p '.' = (j : ℤ) := by
          unfold pyRfind
          rw [hj]
          omega
        have htn : (pyRfind p '.').toNat = j := by
          rw [hdotj]
          exact Int.toNat_natCast j
        refine ⟨p.drop (j + 1), ?_⟩
        show p.drop (pyRfind p '.').toNat = '.' :: p.drop (j + 1)
        rw [htn, List.drop_eq_getElem_cons hjl]
        rw [List.getD_eq_getElem p ' ' hjl] at hjc
        rw [hjc]
  · rw [if_neg h1]
    exact Or.inl rfl

/-- C10: for every filename, `_check_ext` returns `'.ps'` as the
extension: `splitext` yields `''` or a dot-led extension, so the dotless
comparison `ext.lower() != 'ps'` holds for every input, the if-branch
always runs, and the `'.' + ext` else-branch is unreachable; the name part
passes through unchanged. -/
theorem check_ext_always_ps (filename : List Char) :
    (check_ext filename).2 = '.' :: psChars ∧
    lowerChars (splitext filename).2 ≠ psChars ∧
    (check_ext filename).1 = (splitext filename).1 := by
  have hne : lowerChars (splitext filename).2 ≠ psChars := by
    rcases splitext_ext_shape filename with h | ⟨rest, h⟩
    · rw [h]
      intro hcontra
      simp [lowerChars, psChars] at hcontra
    · rw [h]
      intro hcontra
      simp only [lowerChars, List.map_cons, psChars] at hcontra
      have hh := congrArg (fun l => l.headD ' ') hcontra
      simp at hh
  unfold check_ext
  rw [if_pos hne]
  exact ⟨rfl, hne, rfl⟩

end MTUQ
